import Mathlib

/-
  Shallow embedding of src/filerescuematcher.py.

  The external diff collaborator is modelled as an oracle
  `diff : Path → Path → DiffRun` giving, per ordered pair of paths, the
  return code and raw standard output of
  `diff --ed-line-numbers-only left right`, and the raw byte line counts
  (`len(open(p, 'rb').readlines())`) are modelled as an oracle
  `lineCount : Path → Nat`.  Floating point ratios are modelled as exact
  rationals; calls to `die()` / uncaught exceptions are modelled as
  `Except.error`.
-/

namespace FRM

abbrev Path := String

/-- Python's `str.strip()` whitespace test (ASCII subset). -/
def isPySpace (c : Char) : Bool :=
  c = ' ' || c = '\t' || c = '\n' || c = '\r' || c = '\x0b' || c = '\x0c'

/-- Python's `str.strip()`: drop leading and trailing whitespace. -/
def pyStrip (cs : List Char) : List Char :=
  ((cs.dropWhile isPySpace).reverse.dropWhile isPySpace).reverse

/-- Python's `str.split('\n')`.  Crucially, `''.split('\n') == ['']`:
the result is never the empty list. -/
def split_lines : List Char → List (List Char)
  | [] => [[]]
  | c :: rest =>
    match split_lines rest with
    | [] => [[]]
    | line :: lines =>
      if c = '\n' then [] :: line :: lines else (c :: line) :: lines

/-- Numeric value of a digit run, as `int()` computes it. -/
def charsToNat (cs : List Char) : Nat :=
  cs.foldl (fun n c => 10 * n + (c.toNat - '0'.toNat)) 0

/-- `EdDiffLine` namedtuple of the source: one parsed ed-script hunk header. -/
structure EdDiffLine where
  type : Char
  start : Nat
  «end» : Option Nat
deriving Repr, DecidableEq

/-- `EdDiffLine.size`: 1 if no end line number, else `end - start + 1`
(an `Int`, since the source never checks `end ≥ start`). -/
def EdDiffLine.size (d : EdDiffLine) : Int :=
  match d.«end» with
  | none => 1
  | some e => (e : Int) - d.start + 1

/-- The regex `^(?P<start>\d+)(,(?P<end>\d+))?(?P<type>[a|c|d])$` of the
source (`DIFF_ED_LINE_RE`), applied to a list of characters.  The character
class `[a|c|d]` of the source contains the literal `'|'`, so `'|'` is kept
here as an accepted type character; `\d` is modelled as ASCII digits. -/
def ed_line_re_match (cs : List Char) : Option (Nat × Option Nat × Char) :=
  let (ds, rest) := cs.span Char.isDigit
  if ds = [] then none
  else
    match rest with
    | [t] =>
      if t = 'a' || t = '|' || t = 'c' || t = 'd' then
        some (charsToNat ds, none, t)
      else none
    | ',' :: rest2 =>
      let (ds2, rest3) := rest2.span Char.isDigit
      if ds2 = [] then none
      else
        match rest3 with
        | [t] =>
          if t = 'a' || t = '|' || t = 'c' || t = 'd' then
            some (charsToNat ds, some (charsToNat ds2), t)
          else none
        | _ => none
    | _ => none

/-- `parse_diff_ed_line_number_header` of the source: strip the line, match
the regex (`none` models `die_invalid_input()`), reject an `a` header that
carries a `N,M` range, and build the `EdDiffLine`. -/
def parse_diff_ed_line_number_header (line : String) : Option EdDiffLine :=
  match ed_line_re_match (pyStrip line.data) with
  | none => none
  | some (start, e?, t) =>
    if t = 'a' && e?.isSome then none
    else some ⟨t, start, e?⟩

/-- Failure modes of one `common_lines_ratio` call: `DiffError(returncode)`,
the `die()` on an unparsable header line, and Python's `ZeroDivisionError`. -/
inductive ScoreError where
  | comparisonFailed (returncode : Int)
  | malformedEditHeader
  | zeroDivisionError
deriving Repr, DecidableEq

/-- Result of one run of the external diff program: its return code and its
raw standard output (already decoded from bytes). -/
structure DiffRun where
  returncode : Int
  output : String

/-- `diff_ed_lines` of the source: return the diff output, or raise
`DiffError` when the return code is neither 0 nor 1. -/
def diff_ed_lines (run : DiffRun) : Except ScoreError String :=
  if run.returncode = 0 || run.returncode = 1 then Except.ok run.output
  else Except.error (ScoreError.comparisonFailed run.returncode)

/-- The header-parsing prefix of `common_lines_ratio`:
`map(parse_diff_ed_line_number_header, out.strip().split('\n'))`,
where the first unparsable line aborts (`die`). -/
def parse_ed_output (out : String) : Option (List EdDiffLine) :=
  ((split_lines (pyStrip out.data)).map (fun cs => String.mk cs)).mapM
    parse_diff_ed_line_number_header

/-- `sum( ed_line.size for ed_line in ed_lines if ed_line.type in ('c','d') )`. -/
def deleted_lines_sum (ed_lines : List EdDiffLine) : Int :=
  ((ed_lines.filter (fun l => l.type = 'c' || l.type = 'd')).map EdDiffLine.size).sum

/-- `common_lines_ratio` of the source, over the diff and line-count oracles:
obtain the edit script, parse every header line, sum the deleted line counts,
and return `2.0 * common_lines / (left_lines + right_lines)`. -/
def common_lines_ratio (diff : Path → Path → DiffRun) (lineCount : Path → Nat)
    (left_path right_path : Path) : Except ScoreError ℚ :=
  match diff_ed_lines (diff left_path right_path) with
  | Except.error e => Except.error e
  | Except.ok out =>
    match parse_ed_output out with
    | none => Except.error ScoreError.malformedEditHeader
    | some ed_lines =>
      let deleted_lines := deleted_lines_sum ed_lines
      let left_lines := lineCount left_path
      let right_lines := lineCount right_path
      if left_lines + right_lines = 0 then Except.error ScoreError.zeroDivisionError
      else
        Except.ok (2 * ((left_lines : ℚ) - (deleted_lines : ℚ)) /
          ((left_lines : ℚ) + (right_lines : ℚ)))

/-- `os.path.join(a, b)` for the cases the program exercises: an absolute
second component replaces the first, otherwise the components are joined
with a `/` separator. -/
def os_path_join (a b : Path) : Path :=
  match b.data with
  | '/' :: _ => b
  | _ => String.mk (a.data ++ '/' :: b.data)

/-- `build_file_list` of the source over a file-system oracle `fs` mapping a
directory to the relative paths of the files below it: `os.walk` plus
`os.path.join` yields each file's path prefixed by `dir` exactly as given. -/
def build_file_list (fs : Path → List Path) (dir : Path) : List Path :=
  (fs dir).map (fun rel => os_path_join dir rel)

/-- Inner loop of `find_tree_matches`: walk the right paths for a fixed left
path, skip pairs the prematch filter rejects, record `(right_path, ratio)`
for scored pairs, drop the pair on `DiffError` (the `except DiffError`
branch), and propagate any other failure (which the source does not catch). -/
def find_right_matches (score : Path → Path → Except ScoreError ℚ)
    (prematch : Path → Path → Bool) (left_path : Path) :
    List Path → Except ScoreError (List (Path × ℚ))
  | [] => Except.ok []
  | right_path :: rest =>
    if prematch left_path right_path then
      match score left_path right_path with
      | Except.ok ratio =>
        match find_right_matches score prematch left_path rest with
        | Except.ok ms => Except.ok ((right_path, ratio) :: ms)
        | Except.error e => Except.error e
      | Except.error (ScoreError.comparisonFailed _) =>
        find_right_matches score prematch left_path rest
      | Except.error e => Except.error e
    else find_right_matches score prematch left_path rest

/-- Outer loop of `find_tree_matches`: one `(left_path, matches)` pair per
left path, in order. -/
def find_left_matches (score : Path → Path → Except ScoreError ℚ)
    (prematch : Path → Path → Bool) (right_paths : List Path) :
    List Path → Except ScoreError (List (Path × List (Path × ℚ)))
  | [] => Except.ok []
  | left_path :: rest =>
    match find_right_matches score prematch left_path right_paths with
    | Except.error e => Except.error e
    | Except.ok ms =>
      match find_left_matches score prematch right_paths rest with
      | Except.error e => Except.error e
      | Except.ok tms => Except.ok ((left_path, ms) :: tms)

/-- `find_tree_matches` of the source: build both file lists and run the
nested comparison loops with `common_lines_ratio`. -/
def find_tree_matches (diff : Path → Path → DiffRun) (lineCount : Path → Nat)
    (fs : Path → List Path) (left right : Path) (prematch : Path → Path → Bool) :
    Except ScoreError (List (Path × List (Path × ℚ))) :=
  find_left_matches (common_lines_ratio diff lineCount) prematch
    (build_file_list fs right) (build_file_list fs left)

/-- The `prematch_filter` closure of `rescue_matcher`:
`all( f.filter(left_path, right_path) for f in prematch_filters )`. -/
def prematch_filter (prematch_filters : List (Path → Path → Bool))
    (left_path right_path : Path) : Bool :=
  prematch_filters.all (fun f => f left_path right_path)

/-- Descending-ratio order used by
`sorted(..., key=matches_dict.get, reverse=True)`. -/
def ratio_ge (a b : Path × ℚ) : Prop := b.2 ≤ a.2

instance : DecidableRel ratio_ge :=
  fun a b => inferInstanceAs (Decidable (b.2 ≤ a.2))

instance : IsTotal (Path × ℚ) ratio_ge := ⟨fun a b => le_total b.2 a.2⟩

instance : IsTrans (Path × ℚ) ratio_ge := ⟨fun _ _ _ h1 h2 => le_trans h2 h1⟩

/-- The `selected_files` expression of `rescue_matcher`: keep the entries
with ratio `≥ min_ratio` and sort by ratio in descending order.  Python's
`sorted` is a stable sort, and a stable sort is extensionally unique, so the
stable `List.insertionSort` computes exactly its result. -/
def select_and_sort (min_ratio : ℚ) (matches_dict : List (Path × ℚ)) : List (Path × ℚ) :=
  List.insertionSort ratio_ge (matches_dict.filter (fun kv => decide (min_ratio ≤ kv.2)))

/-- Observable effects of one `rescue_matcher` run: the printed blocks
(per left path, the `(ratio, right_path)` lines in print order) and the
`copy_full_path` calls as `(left_path, src, dst)` triples. -/
structure RunOutput where
  printed : List (Path × List (ℚ × Path))
  copies : List (Path × Path × Path)
deriving DecidableEq

/-- The per-left-file loop body of `rescue_matcher`: skip a left file whose
selection is empty, otherwise print its block and, when a copy destination
is configured, copy `selected_files[-1 if copy_least_matching else 0]` to
`os.path.join(copy_dest, left_path)`. -/
def process_tree_matches (min_ratio : ℚ) (copy_dest : Option Path)
    (copy_least_matching : Bool) :
    List (Path × List (Path × ℚ)) → RunOutput
  | [] => ⟨[], []⟩
  | (left_path, matches_dict) :: rest =>
    let out := process_tree_matches min_ratio copy_dest copy_least_matching rest
    let selected_files := select_and_sort min_ratio matches_dict
    if selected_files = [] then out
    else
      let block := (left_path, selected_files.map (fun kv => (kv.2, kv.1)))
      match copy_dest with
      | none => ⟨block :: out.printed, out.copies⟩
      | some dest =>
        let best := if copy_least_matching then selected_files.getLastD ("", 0)
          else selected_files.headD ("", 0)
        ⟨block :: out.printed,
          (left_path, best.1, os_path_join dest left_path) :: out.copies⟩

/-- `rescue_matcher` of the source: run `find_tree_matches` with the
composed prematch filter and process the resulting stream. -/
def rescue_matcher (diff : Path → Path → DiffRun) (lineCount : Path → Nat)
    (fs : Path → List Path) (left_tree right_tree : Path) (min_ratio : ℚ)
    (prematch_filters : List (Path → Path → Bool)) (copy_dest : Option Path)
    (copy_least_matching : Bool) : Except ScoreError RunOutput :=
  match find_tree_matches diff lineCount fs left_tree right_tree
      (prematch_filter prematch_filters) with
  | Except.error e => Except.error e
  | Except.ok tms =>
    Except.ok (process_tree_matches min_ratio copy_dest copy_least_matching tms)

/-- A score outcome the tree scan survives: a ratio, or the recoverable
`DiffError` that `find_tree_matches` catches. -/
def nonFatal : Except ScoreError ℚ → Prop
  | Except.ok _ => True
  | Except.error (ScoreError.comparisonFailed _) => True
  | Except.error _ => False

/-- The match set the inner loop is meant to build for one left path:
every admitted, successfully scored right path with its ratio, in right-tree
order; pairs whose comparison failed are dropped. -/
def right_matches_spec (score : Path → Path → Except ScoreError ℚ)
    (prematch : Path → Path → Bool) (left_path : Path) (rights : List Path) :
    List (Path × ℚ) :=
  rights.filterMap (fun r =>
    if prematch left_path r then (score left_path r).toOption.map (fun q => (r, q))
    else none)

/-- The printed block one `(left_path, matches)` entry contributes, if any. -/
def block_spec (min_ratio : ℚ) (lm : Path × List (Path × ℚ)) :
    Option (Path × List (ℚ × Path)) :=
  if select_and_sort min_ratio lm.2 = [] then none
  else some (lm.1, (select_and_sort min_ratio lm.2).map (fun kv => (kv.2, kv.1)))

/-- The copy one `(left_path, matches)` entry triggers, if any. -/
def copy_spec (min_ratio : ℚ) (copy_dest : Option Path) (copy_least_matching : Bool)
    (lm : Path × List (Path × ℚ)) : Option (Path × Path × Path) :=
  if select_and_sort min_ratio lm.2 = [] then none
  else
    match copy_dest with
    | none => none
    | some dest =>
      some (lm.1,
        (if copy_least_matching then (select_and_sort min_ratio lm.2).getLastD ("", 0)
          else (select_and_sort min_ratio lm.2).headD ("", 0)).1,
        os_path_join dest lm.1)

/-- Modelled from the spec: the contract of the external diff collaborator
(out of scope of src/, §1 and §4.1 of the spec).  Its hunk headers carry
1-based line numbers with `M ≥ N` when a range is present, the Change and
Delete ranges lie within the left file (so the deleted line total is at most
`leftLines`), and the lines not deleted from the left file all occur in the
right file (so `leftLines - deletedLines ≤ rightLines`). -/
def ValidEdScript (ops : List EdDiffLine) (leftLines rightLines : Nat) : Prop :=
  (∀ op ∈ ops, (op.type = 'c' ∨ op.type = 'd') →
      op.«end».all (fun e => decide (op.start ≤ e)) = true) ∧
  deleted_lines_sum ops ≤ (leftLines : ℤ) ∧
  (leftLines : ℤ) - deleted_lines_sum ops ≤ (rightLines : ℤ)

instance (ops : List EdDiffLine) (leftLines rightLines : Nat) :
    Decidable (ValidEdScript ops leftLines rightLines) := by
  unfold ValidEdScript
  infer_instance

theorem find_right_matches_of_nonFatal (score : Path → Path → Except ScoreError ℚ)
    (prematch : Path → Path → Bool) (l : Path) (rights : List Path)
    (h : ∀ r ∈ rights, nonFatal (score l r)) :
    find_right_matches score prematch l rights =
      Except.ok (right_matches_spec score prematch l rights) := by
  induction rights with
  | nil => rfl
  | cons rp rest ih =>
    have hrest : ∀ r ∈ rest, nonFatal (score l r) := fun r hr => h r (List.mem_cons_of_mem _ hr)
    have hhead : nonFatal (score l rp) := h rp (List.mem_cons_self _ _)
    rw [find_right_matches, right_matches_spec, List.filterMap_cons]
    by_cases hf : prematch l rp
    · simp only [hf, if_pos]
      cases hs : score l rp with
      | ok q => rw [ih hrest]; simp [right_matches_spec, hs, Except.toOption]
      | error e =>
        cases e with
        | comparisonFailed c => rw [ih hrest]; simp [right_matches_spec, hs, Except.toOption]
        | malformedEditHeader => rw [hs] at hhead; exact absurd hhead (by simp [nonFatal])
        | zeroDivisionError => rw [hs] at hhead; exact absurd hhead (by simp [nonFatal])
    · simp only [hf, if_neg, Bool.false_eq_true, not_false_iff]
      rw [ih hrest]
      simp [right_matches_spec, hf]

theorem find_right_matches_ok_eq (score : Path → Path → Except ScoreError ℚ)
    (prematch : Path → Path → Bool) (l : Path) (rights : List Path)
    (ms : List (Path × ℚ))
    (h : find_right_matches score prematch l rights = Except.ok ms) :
    ms = right_matches_spec score prematch l rights := by
  induction rights generalizing ms with
  | nil =>
    rw [find_right_matches] at h
    cases h
    rfl
  | cons rp rest ih =>
    rw [find_right_matches] at h
    rw [right_matches_spec, List.filterMap_cons]
    by_cases hf : prematch l rp
    · rw [if_pos hf] at h
      rw [if_pos hf]
      cases hs : score l rp with
      | ok q =>
        rw [hs] at h
        dsimp only at h
        cases hrest : find_right_matches score prematch l rest with
        | ok ms' =>
          rw [hrest] at h
          cases h
          have hr := ih ms' hrest
          rw [right_matches_spec] at hr
          simp [Except.toOption, hr]
        | error e => rw [hrest] at h; cases h
      | error e =>
        cases e with
        | comparisonFailed c =>
          rw [hs] at h
          dsimp only at h
          have hr := ih ms h
          rw [right_matches_spec] at hr
          simp [Except.toOption, hr]
        | malformedEditHeader => rw [hs] at h; cases h
        | zeroDivisionError => rw [hs] at h; cases h
    · rw [if_neg hf] at h
      rw [if_neg hf]
      simpa [right_matches_spec] using ih ms h

theorem find_left_matches_of_nonFatal (score : Path → Path → Except ScoreError ℚ)
    (prematch : Path → Path → Bool) (rights lefts : List Path)
    (h : ∀ l ∈ lefts, ∀ r ∈ rights, nonFatal (score l r)) :
    find_left_matches score prematch rights lefts =
      Except.ok (lefts.map (fun l => (l, right_matches_spec score prematch l rights))) := by
  induction lefts with
  | nil => rfl
  | cons lp rest ih =>
    rw [find_left_matches,
      find_right_matches_of_nonFatal score prematch lp rights (h lp (List.mem_cons_self _ _)),
      ih (fun l hl => h l (List.mem_cons_of_mem _ hl))]
    simp

theorem find_left_matches_ok_eq (score : Path → Path → Except ScoreError ℚ)
    (prematch : Path → Path → Bool) (rights lefts : List Path)
    (tms : List (Path × List (Path × ℚ)))
    (h : find_left_matches score prematch rights lefts = Except.ok tms) :
    tms.map Prod.fst = lefts ∧
      ∀ p ∈ tms, p.2 = right_matches_spec score prematch p.1 rights := by
  induction lefts generalizing tms with
  | nil =>
    rw [find_left_matches] at h
    cases h
    simp
  | cons lp rest ih =>
    rw [find_left_matches] at h
    cases hhead : find_right_matches score prematch lp rights with
    | error e => rw [hhead] at h; cases h
    | ok ms =>
      rw [hhead] at h
      cases hrest : find_left_matches score prematch rights rest with
      | error e => rw [hrest] at h; cases h
      | ok tms' =>
        rw [hrest] at h
        cases h
        obtain ⟨ih1, ih2⟩ := ih tms' hrest
        refine ⟨by simpa using ih1, ?_⟩
        intro p hp
        rcases List.mem_cons.mp hp with hp | hp
        · subst hp
          exact find_right_matches_ok_eq score prematch lp rights ms hhead
        · exact ih2 p hp

theorem mem_select_and_sort (min_ratio : ℚ) (md : List (Path × ℚ)) (kv : Path × ℚ) :
    kv ∈ select_and_sort min_ratio md ↔ kv ∈ md ∧ min_ratio ≤ kv.2 := by
  unfold select_and_sort
  rw [(List.perm_insertionSort ratio_ge _).mem_iff]
  simp [List.mem_filter]

theorem sorted_select_and_sort (min_ratio : ℚ) (md : List (Path × ℚ)) :
    List.Sorted ratio_ge (select_and_sort min_ratio md) :=
  List.sorted_insertionSort ratio_ge _

theorem getLastD_mem (l : List (Path × ℚ)) (h : l ≠ []) (d : Path × ℚ) :
    l.getLastD d ∈ l := by
  induction l generalizing d with
  | nil => exact absurd rfl h
  | cons a t ih =>
    rw [List.getLastD_cons]
    cases t with
    | nil => simp [List.getLastD]
    | cons b t2 => exact List.mem_cons_of_mem _ (ih (by simp) a)

theorem sorted_headD_max {l : List (Path × ℚ)} (hs : List.Sorted ratio_ge l)
    (d : Path × ℚ) {x : Path × ℚ} (hx : x ∈ l) : x.2 ≤ (l.headD d).2 := by
  cases l with
  | nil => simp at hx
  | cons a t =>
    rw [List.headD_cons]
    obtain ⟨h1, _⟩ := List.sorted_cons.mp hs
    rcases List.mem_cons.mp hx with rfl | hx
    · exact le_refl _
    · exact h1 x hx

theorem sorted_getLastD_min {l : List (Path × ℚ)} (hs : List.Sorted ratio_ge l)
    (d : Path × ℚ) {x : Path × ℚ} (hx : x ∈ l) : (l.getLastD d).2 ≤ x.2 := by
  induction l generalizing d with
  | nil => simp at hx
  | cons a t ih =>
    rw [List.getLastD_cons]
    obtain ⟨h1, h2⟩ := List.sorted_cons.mp hs
    rcases List.mem_cons.mp hx with rfl | hx
    · cases t with
      | nil => simp [List.getLastD]
      | cons b t2 => exact h1 _ (getLastD_mem (b :: t2) (by simp) x)
    · exact ih h2 a hx

theorem process_printed_eq (m : ℚ) (cd : Option Path) (clm : Bool)
    (tms : List (Path × List (Path × ℚ))) :
    (process_tree_matches m cd clm tms).printed = tms.filterMap (block_spec m) := by
  induction tms with
  | nil => rfl
  | cons lm rest ih =>
    obtain ⟨lp, md⟩ := lm
    rw [process_tree_matches, List.filterMap_cons]
    by_cases hsel : select_and_sort m md = []
    · simp [block_spec, hsel, ih]
    · cases cd with
      | none => simp [block_spec, hsel, ih]
      | some dest => simp [block_spec, hsel, ih]

theorem process_copies_eq (m : ℚ) (cd : Option Path) (clm : Bool)
    (tms : List (Path × List (Path × ℚ))) :
    (process_tree_matches m cd clm tms).copies = tms.filterMap (copy_spec m cd clm) := by
  induction tms with
  | nil => rfl
  | cons lm rest ih =>
    obtain ⟨lp, md⟩ := lm
    rw [process_tree_matches, List.filterMap_cons]
    by_cases hsel : select_and_sort m md = []
    · simp [copy_spec, hsel, ih]
    · cases cd with
      | none => simp [copy_spec, hsel, ih]
      | some dest => simp [copy_spec, hsel, ih]

/-- Helper: when the diff run succeeded and its output parses, the scorer
returns exactly the Dice-style formula over the parsed operations. -/
theorem common_lines_ratio_formula (diff : Path → Path → DiffRun)
    (lineCount : Path → Nat) (l r : Path) (ops : List EdDiffLine)
    (hrc : (diff l r).returncode = 0 || (diff l r).returncode = 1)
    (hparse : parse_ed_output (diff l r).output = some ops)
    (hLR : lineCount l + lineCount r ≠ 0) :
    common_lines_ratio diff lineCount l r =
      Except.ok (2 * ((lineCount l : ℚ) - (deleted_lines_sum ops : ℚ)) /
        ((lineCount l : ℚ) + (lineCount r : ℚ))) := by
  rw [common_lines_ratio, diff_ed_lines, if_pos hrc]
  dsimp only
  rw [hparse]
  dsimp only
  rw [if_neg hLR]

/-- C1: for identical files the diff collaborator reports no differences
(return code 0, empty output), and `common_lines_ratio` then dies trying to
parse the empty string as a hunk header — because in the source
`"".strip().split('\n') == ['']` — instead of returning the ratio `1.0` the
claim states.  Evaluation of the embedded code at the failing input. -/
theorem claim_C1_self_score_dies_on_empty_edit_script :
    common_lines_ratio (fun _ _ => ⟨0, ""⟩) (fun _ => 1) "f" "f" =
      Except.error ScoreError.malformedEditHeader ∧
    split_lines (pyStrip "".data) = [[]] ∧
    parse_diff_ed_line_number_header "" = none :=
  ⟨rfl, rfl, rfl⟩

/-- C2: on two empty files the scorer fails rather than returning `1.0`.
With both files empty the diff output is empty, so the source dies parsing
the empty header line; and even on a hypothetical parseable edit script with
`leftLineCount + rightLineCount = 0` it would hit the division by zero the
spec flags.  Evaluation of the embedded code at the failing input. -/
theorem claim_C2_both_empty_files_fail :
    common_lines_ratio (fun _ _ => ⟨0, ""⟩) (fun _ => 0) "a" "b" =
      Except.error ScoreError.malformedEditHeader ∧
    common_lines_ratio (fun _ _ => ⟨0, "1a"⟩) (fun _ => 0) "a" "b" =
      Except.error ScoreError.zeroDivisionError :=
  ⟨rfl, rfl⟩

/-- C4: the header parser does not fail exactly on lines outside the
`N[,M]OP` pattern with `OP` one of `a`, `c`, `d`: the source's character
class `[a|c|d]` also matches the literal `'|'`, so the line `"3|"` is
accepted and parsed into an operation of kind `'|'` although `'|'` is not
one of the three claimed operators.  Evaluation of the embedded code at the
failing input. -/
theorem claim_C4_parser_accepts_pipe_operator :
    parse_diff_ed_line_number_header "3|" = some ⟨'|', 3, none⟩ ∧
    ¬('|' = 'a' ∨ '|' = 'c' ∨ '|' = 'd') :=
  ⟨rfl, by decide⟩

/-- C10: the header `"5,3d"` (a range with `M < N`) parses successfully —
the `M ≥ N` constraint is never checked — into an operation of size
`3 - 5 + 1 = -1`, and that negative size flows unchecked into the deleted
line sum of the scorer: with two-line files the resulting ratio is `3/2`. -/
theorem claim_C10_decreasing_range_negative_size :
    parse_diff_ed_line_number_header "5,3d" = some ⟨'d', 5, some 3⟩ ∧
    (EdDiffLine.mk 'd' 5 (some 3)).size = -1 ∧
    deleted_lines_sum [⟨'d', 5, some 3⟩] = -1 ∧
    common_lines_ratio (fun _ _ => ⟨1, "5,3d"⟩) (fun _ => 2) "l" "r" =
      Except.ok (3 / 2) := by
  refine ⟨rfl, rfl, rfl, ?_⟩
  rw [common_lines_ratio_formula (fun _ _ => ⟨1, "5,3d"⟩) (fun _ => 2) "l" "r"
    [⟨'d', 5, some 3⟩] (by decide) (by decide) (by decide)]
  norm_num [deleted_lines_sum, EdDiffLine.size]

/-- C3: for every diff run that succeeded (return code 0 or 1) and whose
edit script parses, and files that are not both empty, the scorer returns
exactly `2 × (leftLineCount − deletedLines) / (leftLineCount +
rightLineCount)`, where `deletedLines` sums `size(op)` only over operations
of kind Change (`'c'`) or Delete (`'d'`), and `size(op)` is
`end − start + 1` when an end is present and `1` otherwise. -/
theorem claim_C3_ratio_formula (diff : Path → Path → DiffRun)
    (lineCount : Path → Nat) (l r : Path) (ops : List EdDiffLine)
    (hrc : (diff l r).returncode = 0 || (diff l r).returncode = 1)
    (hparse : parse_ed_output (diff l r).output = some ops)
    (hLR : lineCount l + lineCount r ≠ 0) :
    common_lines_ratio diff lineCount l r =
      Except.ok (2 * ((lineCount l : ℚ) -
          ((((ops.filter (fun o => o.type = 'c' || o.type = 'd')).map
            EdDiffLine.size).sum : ℤ) : ℚ)) /
        ((lineCount l : ℚ) + (lineCount r : ℚ))) ∧
    (∀ o : EdDiffLine, o.size =
      match o.«end» with
      | none => 1
      | some e => (e : Int) - o.start + 1) := by
  refine ⟨?_, fun o => rfl⟩
  rw [common_lines_ratio_formula diff lineCount l r ops hrc hparse hLR]
  rfl

/-- Witness for C3 at a concrete input: a one-hunk change script `"1,2c"`
against two three-line files. -/
theorem claim_C3_ratio_formula_witness :
    common_lines_ratio (fun _ _ => ⟨1, "1,2c"⟩) (fun _ => 3) "l" "r" =
      Except.ok (2 * ((((3 : Nat)) : ℚ) -
          (((([⟨'c', 1, some 2⟩] : List EdDiffLine).filter
              (fun o => o.type = 'c' || o.type = 'd')).map
            EdDiffLine.size).sum : ℤ)) /
        ((((3 : Nat)) : ℚ) + (((3 : Nat)) : ℚ))) ∧
    (∀ o : EdDiffLine, o.size =
      match o.«end» with
      | none => 1
      | some e => (e : Int) - o.start + 1) :=
  claim_C3_ratio_formula (fun _ _ => ⟨1, "1,2c"⟩) (fun _ => 3) "l" "r"
    [⟨'c', 1, some 2⟩] (by decide) (by decide) (by decide)

/-- Helper: the scorer reports `ComparisonFailed c` exactly when the diff
run's return code is `c` and `c` is neither 0 nor 1. -/
theorem common_lines_ratio_comparisonFailed_iff (diff : Path → Path → DiffRun)
    (lineCount : Path → Nat) (l r : Path) (c : ℤ) :
    common_lines_ratio diff lineCount l r =
        Except.error (ScoreError.comparisonFailed c) ↔
      ((diff l r).returncode = c ∧ ¬(c = 0 ∨ c = 1)) := by
  constructor
  · intro h
    rw [common_lines_ratio] at h
    by_cases hrc : (diff l r).returncode = 0 || (diff l r).returncode = 1
    · rw [diff_ed_lines, if_pos hrc] at h
      dsimp only at h
      cases hp : parse_ed_output (diff l r).output with
      | none => rw [hp] at h; cases h
      | some ops =>
        rw [hp] at h
        dsimp only at h
        by_cases hz : lineCount l + lineCount r = 0
        · rw [if_pos hz] at h; cases h
        · rw [if_neg hz] at h; cases h
    · rw [diff_ed_lines, if_neg hrc] at h
      dsimp only at h
      have hc : (diff l r).returncode = c := by
        injection h with h'
        injection h'
      subst hc
      simp only [Bool.or_eq_true, decide_eq_true_eq] at hrc
      exact ⟨rfl, hrc⟩
  · rintro ⟨rfl, hn⟩
    rw [common_lines_ratio, diff_ed_lines,
      if_neg (by simpa [Bool.or_eq_true, decide_eq_true_eq] using hn)]

/-- Helper: membership in the canonical match set of one left path. -/
theorem mem_right_matches_spec (score : Path → Path → Except ScoreError ℚ)
    (prematch : Path → Path → Bool) (l : Path) (rights : List Path)
    (r : Path) (q : ℚ) :
    (r, q) ∈ right_matches_spec score prematch l rights ↔
      (r ∈ rights ∧ prematch l r = true ∧ score l r = Except.ok q) := by
  unfold right_matches_spec
  rw [List.mem_filterMap]
  constructor
  · rintro ⟨a, ha, hf⟩
    by_cases hp : prematch l a
    · rw [if_pos hp] at hf
      cases hs : score l a with
      | ok q' =>
        rw [hs] at hf
        simp only [Except.toOption, Option.map_some', Option.some.injEq,
          Prod.mk.injEq] at hf
        obtain ⟨rfl, rfl⟩ := hf
        exact ⟨ha, hp, hs⟩
      | error e => rw [hs] at hf; simp [Except.toOption] at hf
    · rw [if_neg hp] at hf; cases hf
  · rintro ⟨hr, hp, hs⟩
    refine ⟨r, hr, ?_⟩
    rw [if_pos hp, hs]
    rfl

/-- C5: scoring a pair fails with `ComparisonFailed(code)` exactly when the
diff collaborator exits with a code other than 0 and 1; and whenever every
pair's score is a ratio or such a recoverable failure, the tree scan
completes, covers every left file, and a left file's match set contains
exactly the admitted right files whose scoring succeeded — so a failed pair
is excluded while all remaining right and left files are still scanned. -/
theorem claim_C5_comparison_failed_isolated (diff : Path → Path → DiffRun)
    (lineCount : Path → Nat) (fs : Path → List Path) (lt rt : Path)
    (prematch : Path → Path → Bool) :
    (∀ l r : Path, ∀ c : ℤ,
      (common_lines_ratio diff lineCount l r =
          Except.error (ScoreError.comparisonFailed c) ↔
        ((diff l r).returncode = c ∧ ¬(c = 0 ∨ c = 1)))) ∧
    ((∀ l ∈ build_file_list fs lt, ∀ r ∈ build_file_list fs rt,
        nonFatal (common_lines_ratio diff lineCount l r)) →
      ∃ tms, find_tree_matches diff lineCount fs lt rt prematch = Except.ok tms ∧
        tms.map Prod.fst = build_file_list fs lt ∧
        ∀ p ∈ tms, ∀ (r : Path) (q : ℚ),
          ((r, q) ∈ p.2 ↔
            (r ∈ build_file_list fs rt ∧ prematch p.1 r = true ∧
              common_lines_ratio diff lineCount p.1 r = Except.ok q))) := by
  constructor
  · exact fun l r c => common_lines_ratio_comparisonFailed_iff diff lineCount l r c
  · intro hnf
    refine ⟨(build_file_list fs lt).map (fun l =>
      (l, right_matches_spec (common_lines_ratio diff lineCount) prematch l
        (build_file_list fs rt))), ?_, ?_, ?_⟩
    · rw [find_tree_matches]
      exact find_left_matches_of_nonFatal _ prematch _ _ hnf
    · simp [Function.comp_def]
    · intro p hp r q
      rw [List.mem_map] at hp
      obtain ⟨l, hl, rfl⟩ := hp
      exact mem_right_matches_spec _ prematch l _ r q

/-- Witness for C5: one left and one right file, every comparison exiting
with the diff return code 2, so the single pair is excluded but the scan
still yields the left file with an empty match set. -/
theorem claim_C5_comparison_failed_isolated_witness :
    (∀ l r : Path, ∀ c : ℤ,
      (common_lines_ratio (fun _ _ => ⟨2, "x"⟩) (fun _ => 1) l r =
          Except.error (ScoreError.comparisonFailed c) ↔
        (((fun (_ _ : Path) => (⟨2, "x"⟩ : DiffRun)) l r).returncode = c ∧
          ¬(c = 0 ∨ c = 1)))) ∧
    ((∀ l ∈ build_file_list (fun _ => ["a"]) "L", ∀ r ∈ build_file_list (fun _ => ["a"]) "R",
        nonFatal (common_lines_ratio (fun _ _ => ⟨2, "x"⟩) (fun _ => 1) l r)) →
      ∃ tms, find_tree_matches (fun _ _ => ⟨2, "x"⟩) (fun _ => 1) (fun _ => ["a"]) "L" "R"
          (fun _ _ => true) = Except.ok tms ∧
        tms.map Prod.fst = build_file_list (fun _ => ["a"]) "L" ∧
        ∀ p ∈ tms, ∀ (r : Path) (q : ℚ),
          ((r, q) ∈ p.2 ↔
            (r ∈ build_file_list (fun _ => ["a"]) "R" ∧ (fun (_ _ : Path) => true) p.1 r = true ∧
              common_lines_ratio (fun _ _ => ⟨2, "x"⟩) (fun _ => 1) p.1 r = Except.ok q))) ∧
    nonFatal (common_lines_ratio (fun _ _ => ⟨2, "x"⟩) (fun _ => 1) "L/a" "R/a") :=
  ⟨(claim_C5_comparison_failed_isolated (fun _ _ => ⟨2, "x"⟩) (fun _ => 1)
      (fun _ => ["a"]) "L" "R" (fun _ _ => true)).1,
   (claim_C5_comparison_failed_isolated (fun _ _ => ⟨2, "x"⟩) (fun _ => 1)
      (fun _ => ["a"]) "L" "R" (fun _ _ => true)).2,
   by rw [(common_lines_ratio_comparisonFailed_iff _ _ _ _ 2).mpr ⟨rfl, by decide⟩]; trivial⟩

/-- C6: the prematch filter chain is the logical AND of its predicates and
the empty chain admits every pair; and whenever any predicate in the chain
rejects a pair, that pair never appears in the left file's match set,
whatever the diff collaborator reports for it. -/
theorem claim_C6_filter_chain_conjunction
    (prematch_filters : List (Path → Path → Bool)) (l r : Path) :
    (prematch_filter prematch_filters l r = true ↔
      ∀ f ∈ prematch_filters, f l r = true) ∧
    (prematch_filter [] l r = true) ∧
    (∀ (diff : Path → Path → DiffRun) (lineCount : Path → Nat)
      (fs : Path → List Path) (lt rt : Path) (f : Path → Path → Bool),
      f ∈ prematch_filters → f l r = false →
      ∀ tms, find_tree_matches diff lineCount fs lt rt
          (prematch_filter prematch_filters) = Except.ok tms →
      ∀ ms, (l, ms) ∈ tms → ∀ q : ℚ, (r, q) ∉ ms) := by
  refine ⟨by simp [prematch_filter], rfl, ?_⟩
  intro diff lineCount fs lt rt f hf hfr tms htms ms hms q hmem
  rw [find_tree_matches] at htms
  have h2 := (find_left_matches_ok_eq _ _ _ _ tms htms).2 (l, ms) hms
  dsimp only at h2
  rw [h2] at hmem
  have := (mem_right_matches_spec _ _ _ _ r q).mp hmem
  have hall : prematch_filter prematch_filters l r = true := this.2.1
  rw [prematch_filter, List.all_eq_true] at hall
  rw [hall f hf] at hfr
  cases hfr

/-- Witness for C6: a one-predicate chain that always rejects, so the single
candidate pair is missing from the match set. -/
theorem claim_C6_filter_chain_conjunction_witness :
    ((prematch_filter [fun _ _ => false] "L/a" "R/a" = true ↔
      ∀ f ∈ [fun (_ _ : Path) => false], f "L/a" "R/a" = true) ∧
    (prematch_filter [] "L/a" "R/a" = true) ∧
    (∀ (diff : Path → Path → DiffRun) (lineCount : Path → Nat)
      (fs : Path → List Path) (lt rt : Path) (f : Path → Path → Bool),
      f ∈ [fun (_ _ : Path) => false] → f "L/a" "R/a" = false →
      ∀ tms, find_tree_matches diff lineCount fs lt rt
          (prematch_filter [fun _ _ => false]) = Except.ok tms →
      ∀ ms, ("L/a", ms) ∈ tms → ∀ q : ℚ, ("R/a", q) ∉ ms)) ∧
    find_tree_matches (fun _ _ => ⟨0, ""⟩) (fun _ => 1) (fun _ => ["a"]) "L" "R"
      (prematch_filter [fun _ _ => false]) = Except.ok [("L/a", [])] :=
  ⟨claim_C6_filter_chain_conjunction [fun _ _ => false] "L/a" "R/a", by rfl⟩

/-- C9: for diff runs that succeeded on a pair of non-empty files, whose
edit script parses, and which respect the collaborator's contract
(`ValidEdScript`, modelled from the spec), the produced similarity ratio
lies in the closed unit interval. -/
theorem claim_C9_ratio_in_unit_interval (diff : Path → Path → DiffRun)
    (lineCount : Path → Nat) (l r : Path) (ops : List EdDiffLine)
    (hrc : (diff l r).returncode = 0 || (diff l r).returncode = 1)
    (hparse : parse_ed_output (diff l r).output = some ops)
    (hL : 0 < lineCount l) (hR : 0 < lineCount r)
    (hvalid : ValidEdScript ops (lineCount l) (lineCount r)) :
    ∃ q : ℚ, common_lines_ratio diff lineCount l r = Except.ok q ∧
      0 ≤ q ∧ q ≤ 1 := by
  obtain ⟨hwf, hDL, hLmD⟩ := hvalid
  have hD : 0 ≤ deleted_lines_sum ops := by
    rw [deleted_lines_sum]
    apply List.sum_nonneg
    intro x hx
    rw [List.mem_map] at hx
    obtain ⟨op, hop, rfl⟩ := hx
    rw [List.mem_filter] at hop
    obtain ⟨hopmem, ht⟩ := hop
    simp only [Bool.or_eq_true, decide_eq_true_eq] at ht
    have hse := hwf op hopmem ht
    cases he : op.«end» with
    | none => simp [EdDiffLine.size, he]
    | some e =>
      rw [he] at hse
      simp only [Option.all_some, decide_eq_true_eq] at hse
      simp only [EdDiffLine.size, he]
      omega
  have hLR : lineCount l + lineCount r ≠ 0 := by omega
  have hLq : 0 < ((lineCount l : ℚ)) := by exact_mod_cast hL
  have hRq : 0 < ((lineCount r : ℚ)) := by exact_mod_cast hR
  have hDq : 0 ≤ ((deleted_lines_sum ops : ℤ) : ℚ) := by exact_mod_cast hD
  have hDLq : ((deleted_lines_sum ops : ℤ) : ℚ) ≤ (lineCount l : ℚ) := by
    exact_mod_cast hDL
  have hLmDq : (lineCount l : ℚ) - ((deleted_lines_sum ops : ℤ) : ℚ) ≤
      (lineCount r : ℚ) := by exact_mod_cast hLmD
  refine ⟨_, common_lines_ratio_formula diff lineCount l r ops hrc hparse hLR,
    ?_, ?_⟩
  · apply div_nonneg
    · linarith
    · linarith
  · rw [div_le_one (by linarith)]
    linarith

/-- Witness for C9: a single change hunk `"2c"` between two two-line files;
the ratio exists and lies in the unit interval. -/
theorem claim_C9_ratio_in_unit_interval_witness :
    ∃ q : ℚ, common_lines_ratio (fun _ _ => ⟨1, "2c"⟩) (fun _ => 2) "l" "r" =
      Except.ok q ∧ 0 ≤ q ∧ q ≤ 1 :=
  claim_C9_ratio_in_unit_interval (fun _ _ => ⟨1, "2c"⟩) (fun _ => 2) "l" "r"
    [⟨'c', 2, none⟩] (by decide) (by decide) (by decide) (by decide) (by decide)

/-- Helper: the first components of the tree-match stream are distinct, so
one left path determines its match set. -/
theorem nodup_fst_eq {tms : List (Path × List (Path × ℚ))} {l : Path}
    {ms ms' : List (Path × ℚ)} (hnd : (tms.map Prod.fst).Nodup)
    (h1 : (l, ms) ∈ tms) (h2 : (l, ms') ∈ tms) : ms = ms' := by
  induction tms with
  | nil => simp at h1
  | cons a t ih =>
    rw [List.map_cons, List.nodup_cons] at hnd
    obtain ⟨hna, hnt⟩ := hnd
    rcases List.mem_cons.mp h1 with h1' | h1' <;>
      rcases List.mem_cons.mp h2 with h2' | h2'
    · exact (Prod.ext_iff.mp (h1'.trans h2'.symm)).2
    · have hlmem : l ∈ List.map Prod.fst t := List.mem_map.mpr ⟨(l, ms'), h2', rfl⟩
      exact absurd (show a.1 ∈ List.map Prod.fst t by rw [← h1']; exact hlmem) hna
    · have hlmem : l ∈ List.map Prod.fst t := List.mem_map.mpr ⟨(l, ms), h1', rfl⟩
      exact absurd (show a.1 ∈ List.map Prod.fst t by rw [← h2']; exact hlmem) hna
    · exact ih hnt h1' h2'

theorem headD_mem (l : List (Path × ℚ)) (h : l ≠ []) (d : Path × ℚ) :
    l.headD d ∈ l := by
  cases l with
  | nil => exact absurd rfl h
  | cons a t => simp

/-- Helper: what one entry's copy record determines. -/
theorem copy_spec_some_fst {m : ℚ} {cd : Option Path} {clm : Bool}
    {lm : Path × List (Path × ℚ)} {c : Path × Path × Path}
    (h : copy_spec m cd clm lm = some c) :
    c.1 = lm.1 ∧ select_and_sort m lm.2 ≠ [] := by
  rw [copy_spec.eq_def] at h
  by_cases hs : select_and_sort m lm.2 = []
  · rw [if_pos hs] at h; cases h
  · rw [if_neg hs] at h
    cases cd with
    | none => cases h
    | some dest =>
      injection h with h'
      exact ⟨by rw [← h'], hs⟩

/-- Helper: what one entry's printed block determines. -/
theorem block_spec_some {m : ℚ} {lm : Path × List (Path × ℚ)}
    {b : Path × List (ℚ × Path)} (h : block_spec m lm = some b) :
    b = (lm.1, (select_and_sort m lm.2).map (fun kv => (kv.2, kv.1))) ∧
      select_and_sort m lm.2 ≠ [] := by
  rw [block_spec] at h
  by_cases hs : select_and_sort m lm.2 = []
  · rw [if_pos hs] at h; cases h
  · rw [if_neg hs] at h
    injection h with h'
    exact ⟨h'.symm, hs⟩

/-- C7: for every left file of the scan (left paths being distinct), the
reported lines are exactly the right paths of its match set with ratio at
least `min_ratio`, printed in descending ratio order, and a left file with
an empty selection contributes neither a printed block nor a copy. -/
theorem claim_C7_reported_matches (m : ℚ) (cd : Option Path) (clm : Bool)
    (tms : List (Path × List (Path × ℚ))) (l : Path) (ms : List (Path × ℚ))
    (hmem : (l, ms) ∈ tms) (hnd : (tms.map Prod.fst).Nodup) :
    (select_and_sort m ms = [] →
        (∀ b ∈ (process_tree_matches m cd clm tms).printed, b.1 ≠ l) ∧
        (∀ c ∈ (process_tree_matches m cd clm tms).copies, c.1 ≠ l)) ∧
    (select_and_sort m ms ≠ [] →
        ∃ lines, (l, lines) ∈ (process_tree_matches m cd clm tms).printed ∧
          (∀ (q : ℚ) (rp : Path), ((q, rp) ∈ lines ↔ ((rp, q) ∈ ms ∧ m ≤ q))) ∧
          lines.Pairwise (fun a b => b.1 ≤ a.1)) := by
  constructor
  · intro hsel
    constructor
    · intro b hb hbl
      rw [process_printed_eq, List.mem_filterMap] at hb
      obtain ⟨lm, hlm, hbs⟩ := hb
      obtain ⟨hb1, hb2⟩ := block_spec_some hbs
      have hlm' : (l, lm.2) ∈ tms := by
        have : lm = (l, lm.2) := by
          rw [← Prod.mk.eta (p := lm)]
          rw [show lm.1 = l from by rw [hb1] at hbl; exact hbl]
        rw [← this]
        exact hlm
      rw [← nodup_fst_eq hnd hmem hlm'] at hb2
      exact hb2 hsel
    · intro c hc hcl
      rw [process_copies_eq, List.mem_filterMap] at hc
      obtain ⟨lm, hlm, hcs⟩ := hc
      obtain ⟨hc1, hc2⟩ := copy_spec_some_fst hcs
      have hlm' : (l, lm.2) ∈ tms := by
        have : lm = (l, lm.2) := by
          rw [← Prod.mk.eta (p := lm)]
          rw [show lm.1 = l from by rw [← hc1]; exact hcl]
        rw [← this]
        exact hlm
      rw [← nodup_fst_eq hnd hmem hlm'] at hc2
      exact hc2 hsel
  · intro hsel
    refine ⟨(select_and_sort m ms).map (fun kv => (kv.2, kv.1)), ?_, ?_, ?_⟩
    · rw [process_printed_eq, List.mem_filterMap]
      exact ⟨(l, ms), hmem, by rw [block_spec, if_neg hsel]⟩
    · intro q rp
      constructor
      · intro h
        rw [List.mem_map] at h
        obtain ⟨kv, hkv, heq⟩ := h
        obtain ⟨a, b⟩ := kv
        injection heq with e1 e2
        subst e1
        subst e2
        exact (mem_select_and_sort m ms _).mp hkv
      · intro ⟨hm, hq⟩
        rw [List.mem_map]
        exact ⟨(rp, q), (mem_select_and_sort m ms _).mpr ⟨hm, hq⟩, rfl⟩
    · exact List.pairwise_map.mpr (sorted_select_and_sort m ms)

/-- Witness for C7 at a concrete stream: one left file with one match of
ratio 1 and minimum ratio 0. -/
theorem claim_C7_reported_matches_witness :
    (select_and_sort 0 [("r", (1 : ℚ))] = [] →
        (∀ b ∈ (process_tree_matches 0 none false [("L", [("r", (1 : ℚ))])]).printed,
          b.1 ≠ "L") ∧
        (∀ c ∈ (process_tree_matches 0 none false [("L", [("r", (1 : ℚ))])]).copies,
          c.1 ≠ "L")) ∧
    (select_and_sort 0 [("r", (1 : ℚ))] ≠ [] →
        ∃ lines,
          ("L", lines) ∈ (process_tree_matches 0 none false [("L", [("r", (1 : ℚ))])]).printed ∧
          (∀ (q : ℚ) (rp : Path),
            ((q, rp) ∈ lines ↔ ((rp, q) ∈ [("r", (1 : ℚ))] ∧ (0 : ℚ) ≤ q))) ∧
          lines.Pairwise (fun a b => b.1 ≤ a.1)) :=
  claim_C7_reported_matches 0 none false [("L", [("r", (1 : ℚ))])] "L"
    [("r", (1 : ℚ))] (by decide) (by decide)

/-- Helper: with a copy destination configured, a left file with non-empty
selection contributes exactly one copy record, whose destination joins the
copy destination with the full enumerated left path. -/
theorem filter_copies_singleton (m : ℚ) (d : Path) (clm : Bool)
    {tms : List (Path × List (Path × ℚ))} {l : Path} {ms : List (Path × ℚ)}
    (hmem : (l, ms) ∈ tms) (hnd : (tms.map Prod.fst).Nodup)
    (hsel : select_and_sort m ms ≠ []) :
    (tms.filterMap (copy_spec m (some d) clm)).filter
        (fun c => decide (c.1 = l)) =
      [(l, (if clm then (select_and_sort m ms).getLastD ("", 0)
        else (select_and_sort m ms).headD ("", 0)).1, os_path_join d l)] := by
  induction tms with
  | nil => simp at hmem
  | cons a t ih =>
    rw [List.map_cons, List.nodup_cons] at hnd
    obtain ⟨hna, hnt⟩ := hnd
    rw [List.filterMap_cons]
    rcases List.mem_cons.mp hmem with h | h
    · have hc : copy_spec m (some d) clm a =
          some (l, (if clm then (select_and_sort m ms).getLastD ("", 0)
            else (select_and_sort m ms).headD ("", 0)).1, os_path_join d l) := by
        rw [← h, copy_spec.eq_def]
        rw [if_neg hsel]
      rw [hc, List.filter_cons_of_pos (by simp)]
      have htail : ∀ x ∈ t.filterMap (copy_spec m (some d) clm),
          ¬(decide (x.1 = l) = true) := by
        intro x hx
        rw [List.mem_filterMap] at hx
        obtain ⟨lm, hlm, hcs⟩ := hx
        simp only [decide_eq_true_eq]
        intro hxl
        have hx1 := (copy_spec_some_fst hcs).1
        have hlml : lm.1 = l := by rw [← hx1]; exact hxl
        have hin : l ∈ List.map Prod.fst t := List.mem_map.mpr ⟨lm, hlm, hlml⟩
        exact hna (show a.1 ∈ List.map Prod.fst t by rw [← h]; exact hin)
      rw [List.filter_eq_nil_iff.mpr htail]
    · have hane : a.1 ≠ l := by
        intro he
        have hin : l ∈ List.map Prod.fst t := List.mem_map.mpr ⟨(l, ms), h, rfl⟩
        exact hna (by rw [he]; exact hin)
      cases hc : copy_spec m (some d) clm a with
      | none => exact ih h hnt
      | some c =>
        rw [List.filter_cons_of_neg (by simp [(copy_spec_some_fst hc).1, hane])]
        exact ih h hnt

/-- C8 counterexample: an end-to-end run with left tree `"known"` holding
the single file `a.txt` and copy destination `"out"`.  The copy's
destination is `"out/known/a.txt"` — the copy destination joined with the
full enumerated left path, left-tree prefix included — and not
`"out/a.txt"`, the destination joined with the left path relative to the
left tree that the claim states. -/
theorem claim_C8_counterexample_destination :
    rescue_matcher (fun _ _ => ⟨1, "1c"⟩) (fun _ => 1)
        (fun dir => if dir = "known" then ["a.txt"]
          else if dir = "resc" then ["b.txt"] else [])
        "known" "resc" 0 [] (some "out") false =
      Except.ok ⟨[("known/a.txt", [((0 : ℚ), "resc/b.txt")])],
        [("known/a.txt", "resc/b.txt", "out/known/a.txt")]⟩ ∧
    os_path_join "out" "a.txt" = "out/a.txt" ∧
    "out/known/a.txt" ≠ "out/a.txt" := by
  refine ⟨?_, rfl, by decide⟩
  have hr : common_lines_ratio (fun _ _ => ⟨1, "1c"⟩) (fun _ => 1)
      "known/a.txt" "resc/b.txt" = Except.ok 0 := by
    rw [common_lines_ratio_formula (fun _ _ => ⟨1, "1c"⟩) (fun _ => 1)
      "known/a.txt" "resc/b.txt" [⟨'c', 1, none⟩] (by decide) (by decide) (by decide)]
    have hd : deleted_lines_sum [⟨'c', 1, none⟩] = 1 := by decide
    rw [hd]
    refine congrArg Except.ok ?_
    norm_num
  have hnf : ∀ l ∈ ["known/a.txt"], ∀ r ∈ ["resc/b.txt"],
      nonFatal (common_lines_ratio (fun _ _ => ⟨1, "1c"⟩) (fun _ => 1) l r) := by
    intro l hl r hrr
    rw [List.mem_singleton] at hl hrr
    subst hl
    subst hrr
    rw [hr]
    trivial
  have hleft := find_left_matches_of_nonFatal
    (common_lines_ratio (fun _ _ => ⟨1, "1c"⟩) (fun _ => 1)) (prematch_filter [])
    ["resc/b.txt"] ["known/a.txt"] hnf
  have hspec : right_matches_spec
      (common_lines_ratio (fun _ _ => ⟨1, "1c"⟩) (fun _ => 1)) (prematch_filter [])
      "known/a.txt" ["resc/b.txt"] = [("resc/b.txt", 0)] := by
    rw [right_matches_spec]
    simp [prematch_filter, hr, Except.toOption]
  have htm : find_tree_matches (fun _ _ => ⟨1, "1c"⟩) (fun _ => 1)
      (fun dir => if dir = "known" then ["a.txt"]
        else if dir = "resc" then ["b.txt"] else [])
      "known" "resc" (prematch_filter []) =
      Except.ok [("known/a.txt", [("resc/b.txt", 0)])] := by
    rw [find_tree_matches,
      show build_file_list (fun dir => if dir = "known" then ["a.txt"]
        else if dir = "resc" then ["b.txt"] else []) "resc" = ["resc/b.txt"] from rfl,
      show build_file_list (fun dir => if dir = "known" then ["a.txt"]
        else if dir = "resc" then ["b.txt"] else []) "known" = ["known/a.txt"] from rfl,
      hleft]
    rw [List.map_singleton, hspec]
  rw [rescue_matcher.eq_def, htm]
  exact congrArg Except.ok (by decide)

/-- C8 as amended: with a copy destination `d` configured and a non-empty
selection for a left file `l` of the scan (left paths distinct), exactly one
right file is copied for `l`: one of maximum selected ratio by default, one
of minimum selected ratio (still at least `min_ratio`) in least-matching
mode — and its destination is `d` joined with the FULL enumerated left path
`l` (which contains the left tree prefix as given on the command line), not
with `l`'s path relative to the left tree. -/
theorem claim_C8_amended_copy_selection (m : ℚ) (d : Path) (clm : Bool)
    (tms : List (Path × List (Path × ℚ))) (l : Path) (ms : List (Path × ℚ))
    (hmem : (l, ms) ∈ tms) (hnd : (tms.map Prod.fst).Nodup)
    (hsel : select_and_sort m ms ≠ []) :
    ∃ (src : Path) (q : ℚ),
      (process_tree_matches m (some d) clm tms).copies.filter
          (fun c => decide (c.1 = l)) = [(l, src, os_path_join d l)] ∧
      (src, q) ∈ ms ∧ m ≤ q ∧
      (clm = false → ∀ (rp : Path) (q' : ℚ), (rp, q') ∈ ms → m ≤ q' → q' ≤ q) ∧
      (clm = true → ∀ (rp : Path) (q' : ℚ), (rp, q') ∈ ms → m ≤ q' → q ≤ q') := by
  have hbestmem : (if clm then (select_and_sort m ms).getLastD ("", 0)
      else (select_and_sort m ms).headD ("", 0)) ∈ select_and_sort m ms := by
    cases clm with
    | false => simpa using headD_mem _ hsel _
    | true => simpa using getLastD_mem _ hsel _
  have hms := (mem_select_and_sort m ms _).mp hbestmem
  refine ⟨(if clm then (select_and_sort m ms).getLastD ("", 0)
      else (select_and_sort m ms).headD ("", 0)).1,
    (if clm then (select_and_sort m ms).getLastD ("", 0)
      else (select_and_sort m ms).headD ("", 0)).2, ?_, ?_, hms.2, ?_, ?_⟩
  · rw [process_copies_eq]
    exact filter_copies_singleton m d clm hmem hnd hsel
  · simpa using hms.1
  · intro hclm rp q' hmem' hq'
    subst hclm
    have hsel' : (rp, q') ∈ select_and_sort m ms :=
      (mem_select_and_sort m ms _).mpr ⟨hmem', hq'⟩
    simpa using sorted_headD_max (sorted_select_and_sort m ms) ("", 0) hsel'
  · intro hclm rp q' hmem' hq'
    subst hclm
    have hsel' : (rp, q') ∈ select_and_sort m ms :=
      (mem_select_and_sort m ms _).mpr ⟨hmem', hq'⟩
    simpa using sorted_getLastD_min (sorted_select_and_sort m ms) ("", 0) hsel'

/-- Witness for the amended C8: one left file with two matches of ratios 1
and 0 above the minimum ratio 0; default mode copies the ratio-1 file to the
destination joined with the full left path. -/
theorem claim_C8_amended_copy_selection_witness :
    ∃ (src : Path) (q : ℚ),
      (process_tree_matches 0 (some "out") false
          [("known/a.txt", [("r1", (1 : ℚ)), ("r2", (0 : ℚ))])]).copies.filter
          (fun c => decide (c.1 = "known/a.txt")) =
        [("known/a.txt", src, os_path_join "out" "known/a.txt")] ∧
      (src, q) ∈ [("r1", (1 : ℚ)), ("r2", (0 : ℚ))] ∧ (0 : ℚ) ≤ q ∧
      (false = false → ∀ (rp : Path) (q' : ℚ),
        (rp, q') ∈ [("r1", (1 : ℚ)), ("r2", (0 : ℚ))] → (0 : ℚ) ≤ q' → q' ≤ q) ∧
      (false = true → ∀ (rp : Path) (q' : ℚ),
        (rp, q') ∈ [("r1", (1 : ℚ)), ("r2", (0 : ℚ))] → (0 : ℚ) ≤ q' → q ≤ q') :=
  claim_C8_amended_copy_selection 0 "out" false
    [("known/a.txt", [("r1", (1 : ℚ)), ("r2", (0 : ℚ))])] "known/a.txt"
    [("r1", (1 : ℚ)), ("r2", (0 : ℚ))] (by decide) (by decide) (by decide)

end FRM
